import Mathlib

/-!
Verification of the poker Monte-Carlo simulator (`src/main.rs`).

The Rust source is shallowly embedded below: pure functions become Lean
functions, `Vec` becomes `List`, machine integers (`u8`, `usize`) become
`Nat` (all arithmetic here stays far below any overflow boundary), and
fallible operations (`Option`, `unwrap`) become `Option` with explicit
`none` for the panicking branches.

Sources of nondeterminism are made explicit as parameters:
- `rand`'s `shuffle` (an external library primitive, out of scope in the
  spec) is a caller-supplied function together with the library's contract
  that it permutes its input;
- the iteration order of `std::collections::HashMap` (used by
  `get_rank_counts`) is a caller-supplied list `ord` of keys; a faithful
  order is any permutation of the key set (`IsIterOrder`);
- the RNG draw used by `winner_indices.choose(&mut rng)` is a
  caller-supplied natural number reduced modulo the list length.
-/

namespace Poker

/-- `enum Suit` from the source. -/
inductive Suit where
  | Clubs | Diamonds | Hearts | Spades
deriving DecidableEq, Repr, Fintype

/-- `enum Rank` from the source: thirteen values `Two = 2, …, Ace = 14`. -/
inductive Rank where
  | Two | Three | Four | Five | Six | Seven | Eight | Nine | Ten
  | Jack | Queen | King | Ace
deriving DecidableEq, Repr, Fintype

/-- The discriminant of `Rank` (`r as u8` in the source): `Two = 2 … Ace = 14`. -/
def rankValue : Rank → Nat
  | .Two => 2 | .Three => 3 | .Four => 4 | .Five => 5 | .Six => 6
  | .Seven => 7 | .Eight => 8 | .Nine => 9 | .Ten => 10 | .Jack => 11
  | .Queen => 12 | .King => 13 | .Ace => 14

/-- `struct Card { rank, suit }` from the source. -/
structure Card where
  rank : Rank
  suit : Suit
deriving DecidableEq, Repr

/-- `enum HandRank` from the source, ten variants in declaration order. -/
inductive HandRank where
  | HighCard (r : Rank)
  | OnePair (r : Rank)
  | TwoPair (a b : Rank)
  | ThreeOfAKind (r : Rank)
  | Straight (r : Rank)
  | Flush (r : Rank)
  | FullHouse (a b : Rank)
  | FourOfAKind (r : Rank)
  | StraightFlush (r : Rank)
  | RoyalFlush
deriving DecidableEq, Repr

/-- Variant index of a `HandRank`, following the declaration order that
Rust's `derive(PartialOrd, Ord)` compares first. -/
def vidx : HandRank → Nat
  | .HighCard _ => 0
  | .OnePair _ => 1
  | .TwoPair _ _ => 2
  | .ThreeOfAKind _ => 3
  | .Straight _ => 4
  | .Flush _ => 5
  | .FullHouse _ _ => 6
  | .FourOfAKind _ => 7
  | .StraightFlush _ => 8
  | .RoyalFlush => 9

/-- First payload rank of a `HandRank` as a numeric value (0 when absent). -/
def pay1 : HandRank → Nat
  | .HighCard r => rankValue r
  | .OnePair r => rankValue r
  | .TwoPair a _ => rankValue a
  | .ThreeOfAKind r => rankValue r
  | .Straight r => rankValue r
  | .Flush r => rankValue r
  | .FullHouse a _ => rankValue a
  | .FourOfAKind r => rankValue r
  | .StraightFlush r => rankValue r
  | .RoyalFlush => 0

/-- Second payload rank of a `HandRank` as a numeric value (0 when absent). -/
def pay2 : HandRank → Nat
  | .TwoPair _ b => rankValue b
  | .FullHouse _ b => rankValue b
  | _ => 0

/-- Numeric sort key realising Rust's `derive(Ord)` on `HandRank`:
variant (declaration order) first, then the payload ranks
lexicographically.  Payload values lie in `[2,14] ⊆ [0,14]`, so the
`15`-ary digits never carry and `225` separates the variant blocks. -/
def key (h : HandRank) : Nat := 225 * vidx h + 15 * pay1 h + pay2 h

/-- The strict order on `HandRank` (`>`/`<` of the derived `Ord`). -/
def hrLt (a b : HandRank) : Prop := key a < key b

/-- The non-strict order on `HandRank`. -/
def hrLe (a b : HandRank) : Prop := key a ≤ key b

instance (a b : HandRank) : Decidable (hrLt a b) := Nat.decLt _ _

instance (a b : HandRank) : Decidable (hrLe a b) := Nat.decLe _ _

/-- `hand_rank_category` from the source. -/
def handRankCategory : HandRank → String
  | .HighCard _ => "HighCard"
  | .OnePair _ => "OnePair"
  | .TwoPair _ _ => "TwoPair"
  | .ThreeOfAKind _ => "ThreeOfAKind"
  | .Straight _ => "Straight"
  | .Flush _ => "Flush"
  | .FullHouse _ _ => "FullHouse"
  | .FourOfAKind _ => "FourOfAKind"
  | .StraightFlush _ => "StraightFlush"
  | .RoyalFlush => "RoyalFlush"

/-- The ten category labels. -/
def categoryList : List String :=
  ["HighCard", "OnePair", "TwoPair", "ThreeOfAKind", "Straight",
   "Flush", "FullHouse", "FourOfAKind", "StraightFlush", "RoyalFlush"]

/-- Rust `Vec::dedup`: remove consecutive duplicates. -/
def dedupAdj : List Nat → List Nat
  | [] => []
  | [a] => [a]
  | a :: b :: rest =>
    if a = b then dedupAdj (b :: rest) else a :: dedupAdj (b :: rest)

/-- `is_sequence` from the source: sort ascending, dedup, require 5
distinct values, then either `max - min = 4` or the wheel `[2,3,4,5,14]`.
(`ranks[4] - ranks[0]` on sorted `u8`s never underflows, so `Nat`
subtraction is exact here.  `sort_unstable` is modelled by insertion
sort: on `Nat` keys stability is irrelevant and any correct sort yields
the same, unique sorted list.) -/
def isSequence (ranks : List Nat) : Bool :=
  let s := dedupAdj (ranks.insertionSort (· ≤ ·))
  if s.length ≠ 5 then false
  else decide (s.getD 4 0 - s.getD 0 0 = 4) || decide (s = [2, 3, 4, 5, 14])

/-- The rank list of a hand (`cards.iter().map(|c| c.rank)`). -/
def ranksOf (cards : List Card) : List Rank := cards.map Card.rank

/-- `ranks.sort_by(|a, b| b.cmp(a))`: ranks sorted descending by value
(`rankGe`, defined below, is the comparison `b.cmp(a).is_le`; distinct
ranks never compare equal, so the choice of sorting algorithm is
irrelevant and insertion sort is used as the model). -/
def sortedRanksDesc (cards : List Card) : List Rank :=
  (ranksOf cards).insertionSort (fun a b => rankValue b ≤ rankValue a)

/-- `rank_values` after `sort_unstable(); dedup()`: the distinct numeric
rank values in ascending order. -/
def sortedRankValues (cards : List Card) : List Nat :=
  dedupAdj (((ranksOf cards).map rankValue).insertionSort (· ≤ ·))

/-- `is_flush`: all suits equal to `suits[0]` (`true` on the empty list,
which the source never reaches: it indexes `suits[0]` on 5-card input). -/
def isFlushOf (cards : List Card) : Bool :=
  match cards.map Card.suit with
  | [] => true
  | s0 :: rest => (s0 :: rest).all (fun s => decide (s = s0))

/-- `is_straight = is_sequence(rank_values.clone())`. -/
def isStraightOf (cards : List Card) : Bool := isSequence (sortedRankValues cards)

/-- `get_rank_counts` as a function: the multiplicity of each rank in the
hand (the source builds a `HashMap<Rank, u8>`; its key set is the set of
distinct ranks, iterated in the order `ord` below). -/
def rankCount (cards : List Card) (r : Rank) : Nat := (ranksOf cards).count r

/-- A faithful iteration order for the `HashMap` built by
`get_rank_counts` on `cards`: any permutation of the distinct ranks. -/
def IsIterOrder (cards : List Card) (ord : List Rank) : Prop :=
  ord.Perm (ranksOf cards).dedup

instance (cards : List Card) (ord : List Rank) : Decidable (IsIterOrder cards ord) :=
  List.decidablePerm _ _

/-- `evaluate_five_card_hand` from the source.  `ord` is the iteration
order of the `rank_counts` map; `.getD Rank.Two` stands for the source's
`unwrap()` on `find` calls whose guard guarantees a hit. -/
def evaluateFiveCardHand (ord : List Rank) (cards : List Card) : HandRank :=
  let ranks := sortedRanksDesc cards
  let highRank := ranks.headD Rank.Two
  let counts := rankCount cards
  let countsVals := ord.map counts
  if isFlushOf cards && isStraightOf cards then
    if ranks.contains Rank.Ace && ranks.contains Rank.King then
      HandRank.RoyalFlush
    else
      HandRank.StraightFlush highRank
  else if countsVals.contains 4 then
    HandRank.FourOfAKind ((ord.find? (fun r => decide (counts r = 4))).getD Rank.Two)
  else if countsVals.contains 3 && countsVals.contains 2 then
    HandRank.FullHouse ((ord.find? (fun r => decide (counts r = 3))).getD Rank.Two)
      ((ord.find? (fun r => decide (counts r = 2))).getD Rank.Two)
  else if isFlushOf cards then
    HandRank.Flush highRank
  else if isStraightOf cards then
    HandRank.Straight highRank
  else if countsVals.contains 3 then
    HandRank.ThreeOfAKind ((ord.find? (fun r => decide (counts r = 3))).getD Rank.Two)
  else
    match ord.filter (fun r => decide (counts r = 2)) with
    | [a, b] => HandRank.TwoPair a b
    | [a] => HandRank.OnePair a
    | _ => HandRank.HighCard highRank

/-- `itertools`' `combinations(n)`: all length-`n` subsequences, in
lexicographic order of positions (take the head or skip it). -/
def combinations {α : Type} : Nat → List α → List (List α)
  | 0, _ => [[]]
  | _ + 1, [] => []
  | n + 1, x :: xs =>
    ((combinations n xs).map (fun c => x :: c)) ++ combinations (n + 1) xs

/-- `if rank > best { best = rank }` as a binary max. -/
def maxHR (a b : HandRank) : HandRank := if key a < key b then b else a

/-- `evaluate_hand` from the source: fold the best `HandRank` over all
five-card combinations, starting from the sentinel `HighCard(Two)`.
`pol` supplies the `HashMap` iteration order used for each subset
(each loop iteration builds a fresh map). -/
def evaluateHand (pol : List Card → List Rank) (cards : List Card) : HandRank :=
  (combinations 5 cards).foldl
    (fun best combo => maxHR best (evaluateFiveCardHand (pol combo) combo))
    (HandRank.HighCard Rank.Two)

/-- The canonical iteration-order policy used to instantiate theorems:
distinct ranks in first-occurrence order (always a valid `IsIterOrder`). -/
def canonicalPolicy (cards : List Card) : List Rank := (ranksOf cards).dedup

/-- The suit loop of `Deck::new()`. -/
def allSuits : List Suit := [.Clubs, .Diamonds, .Hearts, .Spades]

/-- The rank loop of `Deck::new()` (`for rank_value in 2..=14`, mapped
back to `Rank` by the `match`). -/
def allRanksAsc : List Rank :=
  [.Two, .Three, .Four, .Five, .Six, .Seven, .Eight, .Nine, .Ten,
   .Jack, .Queen, .King, .Ace]

/-- `Deck::new()`: 52 cards, suit-major, rank-minor (ranks 2..Ace). -/
def deckNew : List Card :=
  allSuits.flatMap (fun s => allRanksAsc.map (fun r => Card.mk r s))

/-- `Deck::deal()`: `Vec::pop`, i.e. remove and return the LAST card. -/
def deal (d : List Card) : Option (Card × List Card) :=
  match d.getLast? with
  | none => none
  | some c => some (c, d.dropLast)

/-- `k` consecutive `deal().unwrap()` calls: `none` as soon as one deal
fails (the source would panic there), otherwise the dealt cards in deal
order together with the remaining deck. -/
def dealNStrict : Nat → List Card → Option (List Card × List Card)
  | 0, d => some ([], d)
  | n + 1, d =>
    match deal d with
    | none => none
    | some (c, d1) =>
      match dealNStrict n d1 with
      | none => none
      | some (cs, d2) => some (c :: cs, d2)

/-- The hole-card grouping of `simulate_game`: consecutive pairs of the
dealt cards, one two-card hand per player. -/
def pairUp : List Card → List (List Card)
  | c1 :: c2 :: rest => [c1, c2] :: pairUp rest
  | [] => []
  | [_] => []

/-- The winner-tracking loop of `simulate_game` (`best_hand_rank` /
`winner_indices`): reset the tied list on a strictly greater rank,
append on an equal rank. -/
def findWinnersAux : List HandRank → Nat → HandRank → List Nat → HandRank × List Nat
  | [], _, best, ws => (best, ws)
  | h :: rest, i, best, ws =>
    if key best < key h then findWinnersAux rest (i + 1) h [i]
    else if h = best then findWinnersAux rest (i + 1) best (ws ++ [i])
    else findWinnersAux rest (i + 1) best ws

/-- The winner-tracking loop started from `HighCard(Two)` and `vec![]`. -/
def findWinners (evals : List HandRank) : HandRank × List Nat :=
  findWinnersAux evals 0 (HandRank.HighCard Rank.Two) []

/-- `winner_indices.choose(&mut rng)` with the RNG draw `k` made
explicit: pick element `k mod length` (any member is reachable). -/
def chooseIdx (k : Nat) (ws : List Nat) : Nat := ws.getD (k % ws.length) 0

/-- `*hand_rank_counts.entry(category).or_insert(0) += 1` on a tally
modelled as a total function from labels to counts. -/
def bump (t : String → Nat) (cat : String) : String → Nat :=
  fun s => if s = cat then t s + 1 else t s

/-- The total of a tally over the ten category labels. -/
def totalTally (t : String → Nat) : Nat := (categoryList.map t).sum

/-- `simulate_game` from the source.  `shuf` is `deck.shuffle()` (the
external `rand` primitive), `pshuf` is `players.shuffle(..)`, `pol` the
`HashMap` iteration-order policy, `pick` the RNG draw for the tied-winner
choice.  `none` models the panicking `unwrap()` branches (deck exhausted,
or no winner). -/
def simulateGame (shuf : List Card → List Card)
    (pshuf : List (List Card) → List (List Card))
    (pol : List Card → List Rank) (pick : Nat) (numPlayers : Nat)
    (tally : String → Nat) : Option (Nat × (String → Nat)) :=
  match dealNStrict (2 * numPlayers) (shuf deckNew) with
  | none => none
  | some (holeCards, deck1) =>
    let players := pshuf (pairUp holeCards)
    match dealNStrict 5 deck1 with
    | none => none
    | some (community, _) =>
      let evals := players.map (fun h => evaluateHand pol (h ++ community))
      let tally1 := evals.foldl (fun t e => bump t (handRankCategory e)) tally
      match (findWinners evals).2 with
      | [] => none
      | w :: ws => some (chooseIdx pick (w :: ws), tally1)

/-- `wins_lock[winner] += 1` on a win-count vector. -/
def incrAt (l : List Nat) (i : Nat) : List Nat := l.set i (l.getD i 0 + 1)

/-- The per-trial randomness of one `simulate_game` call: deck shuffle,
player shuffle, map-iteration policy, tied-winner draw. -/
def TrialParams : Type :=
  (List Card → List Card) × (List (List Card) → List (List Card)) ×
    (List Card → List Rank) × Nat

/-- The aggregation loop of `main`: run the trials in sequence,
incrementing the winner's cell of the win vector and threading the
category tally. -/
def runTrialsAux (numPlayers : Nat) :
    List TrialParams → List Nat → (String → Nat) → Option (List Nat × (String → Nat))
  | [], wins, tally => some (wins, tally)
  | (shuf, pshuf, pol, pick) :: rest, wins, tally =>
    match simulateGame shuf pshuf pol pick numPlayers tally with
    | none => none
    | some (w, tally1) => runTrialsAux numPlayers rest (incrAt wins w) tally1

/-- `main`'s aggregation started from the zero vector and zero tally. -/
def runTrials (numPlayers : Nat) (trials : List TrialParams) :
    Option (List Nat × (String → Nat)) :=
  runTrialsAux numPlayers trials (List.replicate numPlayers 0) (fun _ => 0)

/-- The wheel hand {A♥, 2♥, 3♦, 4♣, 5♠} from the spec. -/
def wheelHand : List Card :=
  [⟨.Ace, .Hearts⟩, ⟨.Two, .Hearts⟩, ⟨.Three, .Diamonds⟩, ⟨.Four, .Clubs⟩, ⟨.Five, .Spades⟩]

/-- The royal flush hand {10♠, J♠, Q♠, K♠, A♠} from the spec. -/
def royalHand : List Card :=
  [⟨.Ten, .Spades⟩, ⟨.Jack, .Spades⟩, ⟨.Queen, .Spades⟩, ⟨.King, .Spades⟩, ⟨.Ace, .Spades⟩]

/-- A two-pair hand {2♣, 2♦, 3♣, 3♦, 5♠}, used to exhibit the
map-iteration-order dependence of the `TwoPair` payload. -/
def twoPairHand : List Card :=
  [⟨.Two, .Clubs⟩, ⟨.Two, .Diamonds⟩, ⟨.Three, .Clubs⟩, ⟨.Three, .Diamonds⟩, ⟨.Five, .Spades⟩]

/-- The descending relation the source sorts ranks by
(`ranks.sort_by(|a, b| b.cmp(a))`). -/
def rankGe (a b : Rank) : Prop := rankValue b ≤ rankValue a

instance (a b : Rank) : Decidable (rankGe a b) := Nat.decLe _ _

instance : IsTrans Rank rankGe := ⟨fun _ _ _ h1 h2 => Nat.le_trans h2 h1⟩

instance : IsAntisymm Rank rankGe :=
  ⟨fun a b h1 h2 => by
    have hv : rankValue a = rankValue b := Nat.le_antisymm h2 h1
    revert hv; cases a <;> cases b <;> decide⟩

instance : IsTotal Rank rankGe :=
  ⟨fun a b => (Nat.le_total (rankValue b) (rankValue a)).imp id id⟩

/-- Folding `maxHR` over a list (the running `best_rank` of the loops). -/
def maxOf (b : HandRank) (l : List HandRank) : HandRank := l.foldl maxHR b

/-- The indices (starting at `i`) of the entries of a list equal to `m`. -/
def matchIdxs : List HandRank → Nat → HandRank → List Nat
  | [], _, _ => []
  | h :: t, i, m => if h = m then i :: matchIdxs t (i + 1) m else matchIdxs t (i + 1) m

/-- The `rand` library contract for the two shuffles a trial performs:
`SliceRandom::shuffle` permutes the slice in place. -/
def ValidTrial (t : TrialParams) : Prop :=
  (∀ l : List Card, (t.1 l).Perm l) ∧ (∀ hs : List (List Card), (t.2.1 hs).Perm hs)

/-- Equality of `HandRank` values up to swapping the two ranks carried by
`TwoPair` (the only payload whose order depends on the `HashMap`
iteration order). -/
def SameUpToTwoPairSwap (x y : HandRank) : Prop :=
  x = y ∨ ∃ a b, x = HandRank.TwoPair a b ∧ y = HandRank.TwoPair b a

/-! ### The `HandRank` order: `key` is injective and realises `derive(Ord)` -/

theorem rankValue_ge (r : Rank) : 2 ≤ rankValue r := by cases r <;> decide

theorem rankValue_le (r : Rank) : rankValue r ≤ 14 := by cases r <;> decide

theorem rankValue_inj (a b : Rank) (h : rankValue a = rankValue b) : a = b := by
  revert h; cases a <;> cases b <;> decide

theorem pay1_le (h : HandRank) : pay1 h ≤ 14 := by
  cases h <;> simp only [pay1] <;> first | exact rankValue_le _ | decide

theorem pay2_le (h : HandRank) : pay2 h ≤ 14 := by
  cases h <;> simp only [pay2] <;> first | exact rankValue_le _ | decide

theorem vidx_le (h : HandRank) : vidx h ≤ 9 := by
  cases h <;> simp [vidx]

theorem key_vidx_eq {a b : HandRank} (h : key a = key b) : vidx a = vidx b := by
  have h1 := pay1_le a; have h2 := pay1_le b
  have h3 := pay2_le a; have h4 := pay2_le b
  unfold key at h; omega

theorem key_pay_eq {a b : HandRank} (h : key a = key b) :
    pay1 a = pay1 b ∧ pay2 a = pay2 b := by
  have h1 := pay1_le a; have h2 := pay1_le b
  have h3 := pay2_le a; have h4 := pay2_le b
  have hv := key_vidx_eq h
  unfold key at h; omega

theorem key_inj {a b : HandRank} (h : key a = key b) : a = b := by
  have hv := key_vidx_eq h
  obtain ⟨hp1, hp2⟩ := key_pay_eq h
  cases a <;> cases b <;> simp only [vidx] at hv <;> try omega
  all_goals simp only [pay1, pay2] at hp1 hp2
  all_goals first
    | rfl
    | (congr 1 <;> first | exact rankValue_inj _ _ hp1 | exact rankValue_inj _ _ hp2)

/-- `HighCard(Two)` is the least `HandRank` value (the sentinel the
source folds from). -/
theorem highCardTwo_le (h : HandRank) : hrLe (HandRank.HighCard Rank.Two) h := by
  show key (HandRank.HighCard Rank.Two) ≤ key h
  have h30 : key (HandRank.HighCard Rank.Two) = 30 := by decide
  rw [h30]
  cases h <;> simp only [key, vidx, pay1, pay2] <;>
    first
      | (rename_i a b; have := rankValue_ge a; omega)
      | (rename_i r; have := rankValue_ge r; omega)
      | omega

/-! ### Sorting and `Vec::dedup` helpers -/

theorem sortedRanksDesc_sorted (cards : List Card) :
    (sortedRanksDesc cards).Sorted rankGe :=
  List.sorted_insertionSort _ _

theorem sortedRanksDesc_perm (cards : List Card) :
    (sortedRanksDesc cards).Perm (ranksOf cards) :=
  List.perm_insertionSort _ _

theorem sortedRanksDesc_eq_of_perm {c1 c2 : List Card}
    (h : (ranksOf c1).Perm (ranksOf c2)) :
    sortedRanksDesc c1 = sortedRanksDesc c2 :=
  List.eq_of_perm_of_sorted
    (((sortedRanksDesc_perm c1).trans h).trans (sortedRanksDesc_perm c2).symm)
    (sortedRanksDesc_sorted c1) (sortedRanksDesc_sorted c2)

/-- The head of the descending sort is the greatest rank of the hand. -/
theorem sortedRanksDesc_head_ge (cards : List Card) :
    ∀ r ∈ ranksOf cards, rankValue r ≤ rankValue ((sortedRanksDesc cards).headD Rank.Two) := by
  intro r hr
  have hmem : r ∈ sortedRanksDesc cards := ((sortedRanksDesc_perm cards).mem_iff).mpr hr
  cases hs : sortedRanksDesc cards with
  | nil => rw [hs] at hmem; cases hmem
  | cons h t =>
    rw [hs] at hmem
    have hsorted := sortedRanksDesc_sorted cards
    rw [hs, List.sorted_cons] at hsorted
    rcases List.mem_cons.mp hmem with rfl | hmem
    · simp
    · simpa using hsorted.1 r hmem

/-- The head of the descending sort is a rank of the (nonempty) hand. -/
theorem sortedRanksDesc_head_mem (cards : List Card) (hne : cards ≠ []) :
    (sortedRanksDesc cards).headD Rank.Two ∈ ranksOf cards := by
  have hne2 : ranksOf cards ≠ [] := by
    simpa [ranksOf] using hne
  cases hs : sortedRanksDesc cards with
  | nil =>
    exact absurd (List.Perm.symm (sortedRanksDesc_perm cards))
      (by rw [hs]; simpa using hne2)
  | cons h t =>
    have : h ∈ sortedRanksDesc cards := by rw [hs]; exact List.mem_cons_self h t
    simpa using ((sortedRanksDesc_perm cards).mem_iff).mp this

theorem natInsertionSort_sorted (l : List Nat) :
    (l.insertionSort (· ≤ ·)).Sorted (· ≤ ·) :=
  List.sorted_insertionSort _ _

theorem dedupAdj_mem : ∀ (l : List Nat) (x : Nat), x ∈ dedupAdj l ↔ x ∈ l
  | [], x => by simp [dedupAdj]
  | [a], x => by simp [dedupAdj]
  | a :: b :: rest, x => by
    by_cases hab : a = b
    · subst hab
      rw [dedupAdj, if_pos rfl, dedupAdj_mem (a :: rest) x]
      simp [List.mem_cons]
    · rw [dedupAdj, if_neg hab]
      simp only [List.mem_cons, dedupAdj_mem (b :: rest) x, List.mem_cons]

theorem dedupAdj_sorted : ∀ {l : List Nat},
    l.Sorted (· ≤ ·) → (dedupAdj l).Sorted (· < ·)
  | [], _ => by simp [dedupAdj]
  | [a], _ => by simp [dedupAdj]
  | a :: b :: rest, h => by
    rw [List.sorted_cons] at h
    obtain ⟨ha, h2⟩ := h
    by_cases hab : a = b
    · rw [dedupAdj, if_pos hab]
      exact dedupAdj_sorted h2
    · rw [dedupAdj, if_neg hab]
      rw [List.sorted_cons]
      refine ⟨?_, dedupAdj_sorted h2⟩
      intro x hx
      have hxmem : x ∈ b :: rest := (dedupAdj_mem _ x).mp hx
      have hab' : a < b := Nat.lt_of_le_of_ne (ha b (List.mem_cons_self b rest)) hab
      rcases List.mem_cons.mp hxmem with rfl | hxr
      · exact hab'
      · rw [List.sorted_cons] at h2
        exact Nat.lt_of_lt_of_le hab' (h2.1 x hxr)

theorem dedupAdj_eq_self : ∀ {l : List Nat}, l.Sorted (· < ·) → dedupAdj l = l
  | [], _ => by simp [dedupAdj]
  | [a], _ => by simp [dedupAdj]
  | a :: b :: rest, h => by
    rw [List.sorted_cons] at h
    have hab : a ≠ b := Nat.ne_of_lt (h.1 b (List.mem_cons_self b rest))
    rw [dedupAdj, if_neg hab, dedupAdj_eq_self h.2]

theorem sortedRankValues_sorted (cards : List Card) :
    (sortedRankValues cards).Sorted (· < ·) :=
  dedupAdj_sorted (natInsertionSort_sorted _)

theorem sortedRankValues_eq_of_perm {c1 c2 : List Card}
    (h : (ranksOf c1).Perm (ranksOf c2)) :
    sortedRankValues c1 = sortedRankValues c2 := by
  unfold sortedRankValues
  congr 1
  exact List.eq_of_perm_of_sorted
    ((List.perm_insertionSort _ _).trans ((h.map rankValue).trans
      (List.perm_insertionSort _ _).symm))
    (natInsertionSort_sorted _) (natInsertionSort_sorted _)

theorem sortedRankValues_mem (cards : List Card) (x : Nat) :
    x ∈ sortedRankValues cards ↔ x ∈ (ranksOf cards).map rankValue := by
  unfold sortedRankValues
  rw [dedupAdj_mem, List.mem_insertionSort]

/-! ### Flush and rank-count helpers -/

theorem isFlushOf_iff (cards : List Card) :
    isFlushOf cards = true ↔
      ∀ s1 ∈ cards.map Card.suit, ∀ s2 ∈ cards.map Card.suit, s1 = s2 := by
  unfold isFlushOf
  cases h : cards.map Card.suit with
  | nil => simp
  | cons s0 rest =>
    simp only [List.all_eq_true, decide_eq_true_eq]
    constructor
    · intro hall s1 h1 s2 h2
      rw [hall s1 h1, hall s2 h2]
    · intro hp x hx
      exact hp x hx s0 (List.mem_cons_self s0 rest)

theorem isFlushOf_eq_of_perm {c1 c2 : List Card} (h : c1.Perm c2) :
    isFlushOf c1 = isFlushOf c2 := by
  rw [Bool.eq_iff_iff, isFlushOf_iff, isFlushOf_iff]
  constructor
  · intro hp s1 h1 s2 h2
    exact hp s1 (((h.map Card.suit).mem_iff).mpr h1) s2 (((h.map Card.suit).mem_iff).mpr h2)
  · intro hp s1 h1 s2 h2
    exact hp s1 (((h.map Card.suit).mem_iff).mp h1) s2 (((h.map Card.suit).mem_iff).mp h2)

theorem rankCount_eq_of_perm {c1 c2 : List Card}
    (h : (ranksOf c1).Perm (ranksOf c2)) : rankCount c1 = rankCount c2 :=
  funext fun r => h.count_eq r

/-- `find?` over any list with a unique satisfier returns it. -/
theorem find_eq_of_unique {p : Rank → Bool} :
    ∀ {ord : List Rank} {a : Rank}, a ∈ ord → p a = true →
      (∀ x ∈ ord, p x = true → x = a) → ord.find? p = some a
  | [], a => by intro h; cases h
  | h :: t, a => by
    intro hmem hpa huniq
    rw [List.find?_cons]
    cases hph : p h with
    | true =>
      simp only
      exact congrArg some (huniq h (List.mem_cons_self h t) hph)
    | false =>
      simp only
      have hha : h ≠ a := fun he => by rw [he, hpa] at hph; cases hph
      rcases List.mem_cons.mp hmem with rfl | hta
      · exact absurd rfl hha
      · exact find_eq_of_unique hta hpa fun x hx hpx =>
          huniq x (List.mem_cons_of_mem h hx) hpx

/-- Two distinct elements cannot have total multiplicity above the length. -/
theorem count_add_count_le {α : Type} [DecidableEq α] {r r' : α} (h : r ≠ r') :
    ∀ l : List α, l.count r + l.count r' ≤ l.length
  | [] => by simp
  | a :: t => by
    have ht := count_add_count_le h t
    simp only [List.count_cons, List.length_cons, beq_iff_eq]
    split_ifs with g1 g2 g2
    · exact absurd (g1.symm.trans g2) h
    all_goals omega

/-! ### Fold-max helpers (`best_rank` loops) -/

theorem key_maxHR_left (a b : HandRank) : key a ≤ key (maxHR a b) := by
  unfold maxHR; split <;> omega

theorem key_maxHR_right (a b : HandRank) : key b ≤ key (maxHR a b) := by
  unfold maxHR; split <;> omega

theorem maxHR_eq_or (a b : HandRank) : maxHR a b = a ∨ maxHR a b = b := by
  unfold maxHR; split
  · right; rfl
  · left; rfl

theorem maxOf_cons (b h : HandRank) (t : List HandRank) :
    maxOf b (h :: t) = maxOf (maxHR b h) t := rfl

theorem key_le_maxOf : ∀ (l : List HandRank) (b : HandRank), key b ≤ key (maxOf b l)
  | [], _ => Nat.le_refl _
  | h :: t, b =>
    Nat.le_trans (key_maxHR_left b h) (key_le_maxOf t (maxHR b h))

theorem key_mem_le_maxOf (l : List HandRank) :
    ∀ (b : HandRank), ∀ x ∈ l, key x ≤ key (maxOf b l) := by
  induction l with
  | nil => intro b x hx; cases hx
  | cons h t ih =>
    intro b x hx
    rcases List.mem_cons.mp hx with rfl | hxt
    · exact Nat.le_trans (key_maxHR_right b x) (key_le_maxOf t (maxHR b x))
    · exact ih (maxHR b h) x hxt

theorem maxOf_eq_or_mem : ∀ (l : List HandRank) (b : HandRank),
    maxOf b l = b ∨ maxOf b l ∈ l
  | [], _ => Or.inl rfl
  | h :: t, b => by
    rw [maxOf_cons]
    rcases maxOf_eq_or_mem t (maxHR b h) with heq | hmem
    · rcases maxHR_eq_or b h with hb | hh
      · exact Or.inl (heq.trans hb)
      · exact Or.inr (by rw [heq, hh]; exact List.mem_cons_self h t)
    · exact Or.inr (List.mem_cons_of_mem h hmem)

/-- Started from the global minimum, the fold-max of a nonempty list is
an element of the list. -/
theorem maxOf_min_mem (l : List HandRank) (hne : l ≠ []) :
    maxOf (HandRank.HighCard Rank.Two) l ∈ l := by
  rcases maxOf_eq_or_mem l (HandRank.HighCard Rank.Two) with heq | hmem
  · cases l with
    | nil => exact absurd rfl hne
    | cons h t =>
      have h1 : key h ≤ key (maxOf (HandRank.HighCard Rank.Two) (h :: t)) :=
        key_mem_le_maxOf _ _ h (List.mem_cons_self h t)
      rw [heq] at h1
      have h2 : key (HandRank.HighCard Rank.Two) ≤ key h := highCardTwo_le h
      have : h = HandRank.HighCard Rank.Two := key_inj (Nat.le_antisymm h1 h2)
      rw [heq, ← this]
      exact List.mem_cons_self h t
  · exact hmem

/-! ### `combinations` -/

theorem mem_combinations {α : Type} : ∀ (n : Nat) (l c : List α),
    c ∈ combinations n l ↔ c.Sublist l ∧ c.length = n
  | 0, l, c => by
    simp only [combinations, List.mem_singleton]
    constructor
    · rintro rfl; exact ⟨List.nil_sublist l, rfl⟩
    · rintro ⟨_, hl⟩; exact List.length_eq_zero.mp hl
  | n + 1, [], c => by
    simp only [combinations, List.not_mem_nil, false_iff, not_and]
    intro hs
    rw [List.sublist_nil.mp hs]
    simp
  | n + 1, x :: xs, c => by
    simp only [combinations, List.mem_append, List.mem_map]
    constructor
    · rintro (⟨c', hc', rfl⟩ | hc)
      · obtain ⟨hs, hlen⟩ := (mem_combinations n xs c').mp hc'
        exact ⟨List.cons_sublist_cons.mpr hs, by simp [hlen]⟩
      · obtain ⟨hs, hlen⟩ := (mem_combinations (n + 1) xs c).mp hc
        exact ⟨hs.cons x, hlen⟩
    · rintro ⟨hs, hlen⟩
      rcases List.sublist_cons_iff.mp hs with hxs | ⟨r, rfl, hr⟩
      · exact Or.inr ((mem_combinations (n + 1) xs c).mpr ⟨hxs, hlen⟩)
      · exact Or.inl ⟨r, (mem_combinations n xs r).mpr ⟨hr, by simpa using hlen⟩, rfl⟩

theorem length_combinations {α : Type} : ∀ (n : Nat) (l : List α),
    (combinations n l).length = l.length.choose n
  | 0, l => by simp [combinations]
  | n + 1, [] => by simp [combinations]
  | n + 1, x :: xs => by
    simp [combinations, length_combinations n xs, length_combinations (n + 1) xs,
      Nat.choose_succ_succ]

theorem combinations_eq_nil_of_short {α : Type} (n : Nat) (l : List α)
    (h : l.length < n) : combinations n l = [] := by
  have hlen := length_combinations n l
  rw [Nat.choose_eq_zero_of_lt h] at hlen
  exact List.length_eq_zero.mp hlen

theorem nodup_combinations {α : Type} : ∀ (n : Nat) (l : List α),
    l.Nodup → (combinations n l).Nodup
  | 0, l, _ => by simp [combinations]
  | n + 1, [], _ => by simp [combinations]
  | n + 1, x :: xs, h => by
    have hx : x ∉ xs := (List.nodup_cons.mp h).1
    have hxs : xs.Nodup := (List.nodup_cons.mp h).2
    simp only [combinations]
    apply List.Nodup.append
    · exact (nodup_combinations n xs hxs).map fun a b hab => by
        injection hab
    · exact nodup_combinations (n + 1) xs hxs
    · intro c hc1 hc2
      rcases List.mem_map.mp hc1 with ⟨c', _, rfl⟩
      obtain ⟨hs, _⟩ := (mem_combinations (n + 1) xs (x :: c')).mp hc2
      exact hx (hs.subset (List.mem_cons_self x c'))

/-- Two sublists of a duplicate-free list that are permutations of each
other are equal (subsets are enumerated once, not permuted). -/
theorem sublist_perm_eq {α : Type} : ∀ (l : List α) {a b : List α},
    l.Nodup → a.Sublist l → b.Sublist l → a.Perm b → a = b
  | [], a, b => fun _ ha hb _ => by
    rw [List.sublist_nil.mp ha, List.sublist_nil.mp hb]
  | x :: t, a, b => fun hnd ha hb hab => by
    have hx : x ∉ t := (List.nodup_cons.mp hnd).1
    have hnt : t.Nodup := (List.nodup_cons.mp hnd).2
    rcases List.sublist_cons_iff.mp ha with ha' | ⟨ra, rfl, hra⟩
    · rcases List.sublist_cons_iff.mp hb with hb' | ⟨rb, rfl, hrb⟩
      · exact sublist_perm_eq t hnt ha' hb' hab
      · exact absurd (ha'.subset (hab.mem_iff.mpr (List.mem_cons_self x rb))) hx
    · rcases List.sublist_cons_iff.mp hb with hb' | ⟨rb, rfl, hrb⟩
      · exact absurd (hb'.subset (hab.symm.mem_iff.mpr (List.mem_cons_self x ra))) hx
      · rw [sublist_perm_eq t hnt hra hrb hab.cons_inv]

/-- `evaluate_hand` is the fold-max of the per-subset evaluations. -/
theorem evaluateHand_eq_maxOf (pol : List Card → List Rank) (cards : List Card) :
    evaluateHand pol cards =
      maxOf (HandRank.HighCard Rank.Two)
        ((combinations 5 cards).map (fun c => evaluateFiveCardHand (pol c) c)) := by
  unfold evaluateHand maxOf
  rw [List.foldl_map]

/-- If no rank has multiplicity `m`, the `values().contains(&m)` test is
false for every map-iteration order. -/
theorem map_count_contains_false (cards : List Card) (m : Nat)
    (h : ∀ r : Rank, rankCount cards r ≠ m) (ord : List Rank) :
    (ord.map (rankCount cards)).contains m = false := by
  cases hc : (ord.map (rankCount cards)).contains m with
  | false => rfl
  | true =>
    exfalso
    have hm : m ∈ ord.map (rankCount cards) := by simpa using hc
    rcases List.mem_map.mp hm with ⟨r, _, hr⟩
    exact h r hr

theorem sortedRankValues_le14 (cards : List Card) :
    ∀ x ∈ sortedRankValues cards, x ≤ 14 := by
  intro x hx
  rcases List.mem_map.mp ((sortedRankValues_mem cards x).mp hx) with ⟨r, _, rfl⟩
  exact rankValue_le r

/-- What `is_straight` means in terms of the sorted distinct values. -/
theorem isStraightOf_spec (cards : List Card) :
    isStraightOf cards = true ↔
      (sortedRankValues cards).length = 5 ∧
        ((sortedRankValues cards).getD 4 0 - (sortedRankValues cards).getD 0 0 = 4 ∨
          sortedRankValues cards = [2, 3, 4, 5, 14]) := by
  unfold isStraightOf isSequence
  have hle : (sortedRankValues cards).Sorted (· ≤ ·) :=
    (sortedRankValues_sorted cards).le_of_lt
  have hsort : (sortedRankValues cards).insertionSort (· ≤ ·) = sortedRankValues cards :=
    hle.insertionSort_eq
  simp only [hsort, dedupAdj_eq_self (sortedRankValues_sorted cards)]
  split_ifs with hne
  · simp only [Bool.false_eq_true, false_iff, not_and]
    intro h5
    exact absurd h5 hne
  · have h5 : (sortedRankValues cards).length = 5 := not_ne_iff.mp hne
    simp [h5]

theorem list5_eq : ∀ (l : List Nat), l.length = 5 → ∃ a b c d e, l = [a, b, c, d, e]
  | [a, b, c, d, e], _ => ⟨a, b, c, d, e, rfl⟩
  | [], h => by simp at h
  | [_], h => by simp at h
  | [_, _], h => by simp at h
  | [_, _, _], h => by simp at h
  | [_, _, _, _], h => by simp at h
  | _ :: _ :: _ :: _ :: _ :: _ :: _, h => by
    simp only [List.length_cons] at h
    omega

/-- A 5-distinct-value straight containing both Ace (14) and King (13)
must be exactly the Broadway values 10..14. -/
theorem straight_ace_king_values (cards : List Card)
    (hs : isStraightOf cards = true)
    (hace : Rank.Ace ∈ ranksOf cards) (hking : Rank.King ∈ ranksOf cards) :
    sortedRankValues cards = [10, 11, 12, 13, 14] := by
  obtain ⟨h5, hd⟩ := (isStraightOf_spec cards).mp hs
  have h14 : (14 : Nat) ∈ sortedRankValues cards :=
    (sortedRankValues_mem cards 14).mpr (List.mem_map.mpr ⟨Rank.Ace, hace, rfl⟩)
  have h13 : (13 : Nat) ∈ sortedRankValues cards :=
    (sortedRankValues_mem cards 13).mpr (List.mem_map.mpr ⟨Rank.King, hking, rfl⟩)
  have hsorted := sortedRankValues_sorted cards
  have hle14 := sortedRankValues_le14 cards
  obtain ⟨a, b, c, d, e, hl⟩ := list5_eq _ h5
  rw [hl] at hd h14 h13 hsorted ⊢
  rcases hd with hd | hwheel
  · have he14 : e ≤ 14 := hle14 e (by rw [hl]; simp)
    simp only [List.getD_cons_succ, List.getD_cons_zero] at hd
    simp only [List.mem_cons, List.not_mem_nil, or_false] at h14 h13
    simp only [List.sorted_cons, List.mem_cons, List.not_mem_nil, or_false,
      forall_eq_or_imp, forall_eq, List.sorted_nil, and_true] at hsorted
    simp only [List.cons.injEq, and_true]
    omega
  · rw [hwheel] at h13
    simp at h13

/-- The flush-and-straight branch of `evaluate_five_card_hand`. -/
theorem eval_flush_straight_branch (ord : List Rank) (cards : List Card)
    (hf : isFlushOf cards = true) (hs : isStraightOf cards = true) :
    evaluateFiveCardHand ord cards =
      if (sortedRanksDesc cards).contains Rank.Ace &&
          (sortedRanksDesc cards).contains Rank.King then
        HandRank.RoyalFlush
      else
        HandRank.StraightFlush ((sortedRanksDesc cards).headD Rank.Two) := by
  unfold evaluateFiveCardHand
  rw [hf, hs]
  simp

theorem sortedDesc_contains_iff (cards : List Card) (r : Rank) :
    (sortedRanksDesc cards).contains r = true ↔ r ∈ ranksOf cards := by
  have hmem : r ∈ sortedRanksDesc cards ↔ r ∈ ranksOf cards :=
    (sortedRanksDesc_perm cards).mem_iff
  simp [hmem]

/-! ### Claim theorems -/

/-- C1.  The spec says the wheel hand {A♥,2♥,3♦,4♣,5♠} evaluates to
`Straight(Five)` and is strictly below a 6-high straight.  The code
instead carries `ranks[0]`, the DESCENDING-sorted head, i.e. the Ace: it
returns `Straight(Ace)` — an Ace-high straight that beats `Straight(Six)`
— for every iteration order of the rank-count map.  This contradicts the
spec (and standard poker) at this concrete input. -/
theorem evaluateFiveCardHand_wheel_ace_high :
    ∀ ord : List Rank,
      evaluateFiveCardHand ord wheelHand = HandRank.Straight Rank.Ace ∧
        hrLt (HandRank.Straight Rank.Six) (HandRank.Straight Rank.Ace) := by
  intro ord
  have hf : isFlushOf wheelHand = false := by decide
  have hs : isStraightOf wheelHand = true := by decide
  have h4 : (ord.map (rankCount wheelHand)).contains 4 = false :=
    map_count_contains_false _ _ (by decide) ord
  have h3 : (ord.map (rankCount wheelHand)).contains 3 = false :=
    map_count_contains_false _ _ (by decide) ord
  constructor
  · unfold evaluateFiveCardHand
    simp only [hf, hs, h4, h3, Bool.false_and, Bool.and_true, Bool.false_eq_true,
      if_false, if_true]
    decide
  · decide

/-- C5.  The `HandRank` comparison (Rust `derive(PartialOrd, Ord)`,
modelled by the numeric `key`) is a strict total order, and any value of
a later-declared variant (higher `vidx`, i.e. the ascending category list
HighCard < OnePair < TwoPair < ThreeOfAKind < Straight < Flush <
FullHouse < FourOfAKind < StraightFlush < RoyalFlush) is strictly greater
than any value of an earlier one, regardless of the carried ranks. -/
theorem handRank_strict_total_order :
    (∀ a : HandRank, ¬ hrLt a a) ∧
    (∀ a b c : HandRank, hrLt a b → hrLt b c → hrLt a c) ∧
    (∀ a b : HandRank, hrLt a b ∨ a = b ∨ hrLt b a) ∧
    (∀ a b : HandRank, vidx a < vidx b → hrLt a b) := by
  refine ⟨fun a => Nat.lt_irrefl _, fun a b c => Nat.lt_trans, ?_, ?_⟩
  · intro a b
    rcases Nat.lt_trichotomy (key a) (key b) with h | h | h
    · exact Or.inl h
    · exact Or.inr (Or.inl (key_inj h))
    · exact Or.inr (Or.inr h)
  · intro a b h
    show key a < key b
    have h1 := pay1_le a
    have h2 := pay2_le a
    unfold key
    omega

/-- Witness for C5 at concrete values: a full house is below four of a
kind regardless of payloads, and the order is irreflexive at RoyalFlush. -/
theorem handRank_strict_total_order_witness :
    hrLt (HandRank.FullHouse Rank.Ace Rank.King) (HandRank.FourOfAKind Rank.Two) ∧
      ¬ hrLt HandRank.RoyalFlush HandRank.RoyalFlush :=
  ⟨handRank_strict_total_order.2.2.2 _ _ (by decide),
    handRank_strict_total_order.1 _⟩

/-- C10.  On an input of fewer than five cards there is no five-card
combination, so `evaluate_hand` returns the sentinel `HighCard(Two)`. -/
theorem evaluateHand_short_input_sentinel :
    ∀ (pol : List Card → List Rank) (cards : List Card), cards.length < 5 →
      evaluateHand pol cards = HandRank.HighCard Rank.Two := by
  intro pol cards h
  unfold evaluateHand
  rw [combinations_eq_nil_of_short 5 cards h]
  rfl

/-- Witness for C10 on the empty slice. -/
theorem evaluateHand_short_input_sentinel_witness :
    ([] : List Card).length < 5 ∧
      evaluateHand canonicalPolicy [] = HandRank.HighCard Rank.Two :=
  ⟨by decide, evaluateHand_short_input_sentinel canonicalPolicy [] (by decide)⟩

/-- C2.  On 7 distinct cards, the enumeration `combinations 5` has
exactly C(7,5) = 21 entries, contains no duplicated subset (not even as a
permutation), and `evaluate_hand` returns exactly the maximum of
`evaluate_five_card_hand` over it: the result is one of the 21 subset
evaluations and is an upper bound (under the `HandRank` order) of all of
them. -/
theorem evaluateHand_is_max_of_subsets :
    ∀ (pol : List Card → List Rank) (cards : List Card),
      cards.length = 7 → cards.Nodup →
      (combinations 5 cards).length = 21 ∧
      (combinations 5 cards).Nodup ∧
      (∀ a ∈ combinations 5 cards, ∀ b ∈ combinations 5 cards, a.Perm b → a = b) ∧
      evaluateHand pol cards ∈
        (combinations 5 cards).map (fun c => evaluateFiveCardHand (pol c) c) ∧
      (∀ v ∈ (combinations 5 cards).map (fun c => evaluateFiveCardHand (pol c) c),
        hrLe v (evaluateHand pol cards)) := by
  intro pol cards hlen hnd
  have h21 : (combinations 5 cards).length = 21 := by
    rw [length_combinations, hlen]
    decide
  refine ⟨h21, nodup_combinations 5 cards hnd, ?_, ?_, ?_⟩
  · intro a ha b hb hab
    exact sublist_perm_eq cards hnd ((mem_combinations 5 cards a).mp ha).1
      ((mem_combinations 5 cards b).mp hb).1 hab
  · rw [evaluateHand_eq_maxOf]
    apply maxOf_min_mem
    intro hnil
    have hcomb : combinations 5 cards = [] := List.map_eq_nil_iff.mp hnil
    rw [hcomb] at h21
    simp at h21
  · intro v hv
    rw [evaluateHand_eq_maxOf]
    exact key_mem_le_maxOf _ _ v hv

/-- C4.  For a 5-card hand passing both the flush and straight tests:
with both Ace and King present the result is `RoyalFlush` and the rank
values are necessarily {10,11,12,13,14}; otherwise the result is
`StraightFlush` carrying the highest rank of the hand.  Moreover the
concrete hand {10♠,J♠,Q♠,K♠,A♠} evaluates to `RoyalFlush`, which is
strictly greater than every `StraightFlush` value. -/
theorem royal_and_straight_flush_classification :
    (∀ (ord : List Rank) (cards : List Card), cards.length = 5 →
      isFlushOf cards = true → isStraightOf cards = true →
      ((Rank.Ace ∈ ranksOf cards ∧ Rank.King ∈ ranksOf cards) →
        evaluateFiveCardHand ord cards = HandRank.RoyalFlush ∧
          sortedRankValues cards = [10, 11, 12, 13, 14]) ∧
      (¬(Rank.Ace ∈ ranksOf cards ∧ Rank.King ∈ ranksOf cards) →
        ∃ hr, evaluateFiveCardHand ord cards = HandRank.StraightFlush hr ∧
          hr ∈ ranksOf cards ∧ ∀ r ∈ ranksOf cards, rankValue r ≤ rankValue hr)) ∧
    (∀ ord : List Rank, evaluateFiveCardHand ord royalHand = HandRank.RoyalFlush) ∧
    (∀ r : Rank, hrLt (HandRank.StraightFlush r) HandRank.RoyalFlush) := by
  refine ⟨?_, ?_, ?_⟩
  · intro ord cards h5 hf hs
    rw [eval_flush_straight_branch ord cards hf hs]
    constructor
    · rintro ⟨hace, hking⟩
      rw [if_pos]
      · exact ⟨rfl, straight_ace_king_values cards hs hace hking⟩
      · simp only [Bool.and_eq_true, sortedDesc_contains_iff]
        exact ⟨hace, hking⟩
    · intro hnot
      rw [if_neg]
      · have hne : cards ≠ [] := by
          intro hnil
          rw [hnil] at h5
          simp at h5
        exact ⟨(sortedRanksDesc cards).headD Rank.Two, rfl,
          sortedRanksDesc_head_mem cards hne, sortedRanksDesc_head_ge cards⟩
      · simp only [Bool.and_eq_true, sortedDesc_contains_iff]
        exact hnot
  · intro ord
    rw [eval_flush_straight_branch ord royalHand (by decide) (by decide)]
    decide
  · intro r
    show key (HandRank.StraightFlush r) < key HandRank.RoyalFlush
    have := rankValue_le r
    simp only [key, vidx, pay1, pay2]
    omega

/-- Witness for C4: the royal hand itself. -/
theorem royal_and_straight_flush_classification_witness :
    evaluateFiveCardHand (canonicalPolicy royalHand) royalHand = HandRank.RoyalFlush ∧
      sortedRankValues royalHand = [10, 11, 12, 13, 14] :=
  (royal_and_straight_flush_classification.1 (canonicalPolicy royalHand) royalHand
    (by decide) (by decide) (by decide)).1 (by decide)

/-! ### The winner-tracking loop -/

theorem maxOf_cases : ∀ (l : List HandRank) (b : HandRank),
    maxOf b l = b ∨ key b < key (maxOf b l)
  | [], _ => Or.inl rfl
  | h :: t, b => by
    rw [maxOf_cons]
    by_cases hlt : key b < key h
    · right
      have h1 : maxHR b h = h := if_pos hlt
      rw [h1]
      exact Nat.lt_of_lt_of_le hlt (key_le_maxOf t h)
    · have h1 : maxHR b h = b := if_neg hlt
      rw [h1]
      exact maxOf_cases t b

theorem findWinnersAux_fst : ∀ (l : List HandRank) (i : Nat) (b : HandRank)
    (ws : List Nat), (findWinnersAux l i b ws).1 = maxOf b l
  | [], _, _, _ => rfl
  | h :: t, i, b, ws => by
    rw [maxOf_cons]
    unfold findWinnersAux maxHR
    split_ifs with h1 h2
    · exact findWinnersAux_fst t (i + 1) h [i]
    · exact findWinnersAux_fst t (i + 1) b (ws ++ [i])
    · exact findWinnersAux_fst t (i + 1) b ws

/-- Membership in `matchIdxs`: exactly the positions holding `m`. -/
theorem matchIdxs_mem : ∀ (l : List HandRank) (i : Nat) (m : HandRank) (j : Nat),
    j ∈ matchIdxs l i m ↔
      ∃ k, k < l.length ∧ j = i + k ∧ l.getD k (HandRank.HighCard Rank.Two) = m
  | [], i, m, j => by simp [matchIdxs]
  | h :: t, i, m, j => by
    unfold matchIdxs
    split_ifs with hm
    · simp only [List.mem_cons, matchIdxs_mem t (i + 1) m j]
      constructor
      · rintro (rfl | ⟨k, hk, rfl, hkm⟩)
        · exact ⟨0, by simp, by simp, by simpa using hm⟩
        · exact ⟨k + 1, by simpa using hk, by omega, by simpa using hkm⟩
      · rintro ⟨k, hk, rfl, hkm⟩
        cases k with
        | zero => left; simp
        | succ k' =>
          right
          refine ⟨k', by simp at hk; omega, by omega, by simpa using hkm⟩
    · rw [matchIdxs_mem t (i + 1) m j]
      constructor
      · rintro ⟨k, hk, rfl, hkm⟩
        exact ⟨k + 1, by simpa using hk, by omega, by simpa using hkm⟩
      · rintro ⟨k, hk, rfl, hkm⟩
        cases k with
        | zero => exact absurd (by simpa using hkm) hm
        | succ k' =>
          refine ⟨k', by simp at hk; omega, by omega, by simpa using hkm⟩

/-- The accumulator invariant of the winner loop: the final tied list is
the stale prefix (kept only when nothing beat the incoming best) plus
the positions of the running maximum. -/
theorem findWinnersAux_snd : ∀ (l : List HandRank) (i : Nat) (b : HandRank)
    (ws : List Nat),
    (findWinnersAux l i b ws).2 =
      (if maxOf b l = b then ws else []) ++ matchIdxs l i (maxOf b l)
  | [], i, b, ws => by simp [findWinnersAux, maxOf, matchIdxs]
  | h :: t, i, b, ws => by
    by_cases h1 : key b < key h
    · -- strictly greater: reset to [i]
      have hh : maxHR b h = h := if_pos h1
      have hstep : findWinnersAux (h :: t) i b ws = findWinnersAux t (i + 1) h [i] := by
        simp only [findWinnersAux]
        rw [if_pos h1]
      rw [hstep, maxOf_cons, hh, findWinnersAux_snd t (i + 1) h [i]]
      have hMb : maxOf h t ≠ b := by
        intro he
        rcases maxOf_cases t h with hc | hc
        · rw [he] at hc; rw [hc] at h1; exact Nat.lt_irrefl _ h1
        · rw [he] at hc; exact Nat.lt_irrefl _ (Nat.lt_trans h1 hc)
      rw [if_neg hMb, List.nil_append]
      simp only [matchIdxs]
      by_cases hMh : maxOf h t = h
      · rw [if_pos hMh, if_pos hMh.symm]
        rfl
      · rw [if_neg hMh, if_neg fun he => hMh he.symm, List.nil_append]
    · have hh : maxHR b h = b := if_neg h1
      by_cases h2 : h = b
      · -- equal: append i
        have hstep : findWinnersAux (h :: t) i b ws =
            findWinnersAux t (i + 1) b (ws ++ [i]) := by
          simp only [findWinnersAux]
          rw [if_neg h1, if_pos h2]
        rw [hstep, maxOf_cons, hh, findWinnersAux_snd t (i + 1) b (ws ++ [i])]
        subst h2
        simp only [matchIdxs]
        by_cases hMb : maxOf h t = h
        · rw [if_pos hMb, if_pos hMb, if_pos hMb.symm]
          simp
        · rw [if_neg hMb, if_neg hMb, if_neg fun he => hMb he.symm]
      · -- strictly smaller: unchanged
        have hstep : findWinnersAux (h :: t) i b ws = findWinnersAux t (i + 1) b ws := by
          simp only [findWinnersAux]
          rw [if_neg h1, if_neg h2]
        rw [hstep, maxOf_cons, hh, findWinnersAux_snd t (i + 1) b ws]
        have hhM : ¬(h = maxOf b t) := by
          intro he
          rcases maxOf_cases t b with hc | hc
          · rw [← he] at hc; exact h2 hc
          · have hle : key h ≤ key b := Nat.le_of_not_lt h1
            rw [← he] at hc
            exact Nat.lt_irrefl _ (Nat.lt_of_le_of_lt hle hc)
        simp only [matchIdxs]
        rw [if_neg hhM]

/-- The tied list of `findWinners` is exactly the positions of the
maximum evaluation. -/
theorem findWinners_snd_eq (evals : List HandRank) :
    (findWinners evals).2 =
      matchIdxs evals 0 (maxOf (HandRank.HighCard Rank.Two) evals) := by
  unfold findWinners
  rw [findWinnersAux_snd]
  split_ifs <;> simp

/-! ### Deck dealing -/

/-- `k` successful `deal()` calls split the deck: the dealt cards are the
last `k` cards taken from the top (the vector's end), in deal order; the
remainder is the untouched prefix. -/
theorem dealNStrict_eq : ∀ (k : Nat) (l : List Card), k ≤ l.length →
    dealNStrict k l = some ((l.drop (l.length - k)).reverse, l.take (l.length - k))
  | 0, l, _ => by
    simp [dealNStrict]
  | k + 1, l, hk => by
    have hne : l ≠ [] := by
      intro h
      rw [h] at hk
      simp at hk
    have hdeal : deal l = some (l.getLast hne, l.dropLast) := by
      unfold deal
      rw [List.getLast?_eq_getLast l hne]
    have hlen := List.length_dropLast l
    have hlpos : 1 ≤ l.length := by
      cases l with
      | nil => exact absurd rfl hne
      | cons a t => simp
    have hk' : k ≤ l.dropLast.length := by omega
    rw [dealNStrict, hdeal]
    dsimp only
    rw [dealNStrict_eq k l.dropLast hk']
    dsimp only
    have hm : l.dropLast.length - k = l.length - (k + 1) := by omega
    have hmle : l.length - (k + 1) ≤ l.dropLast.length := by omega
    have hsplit : l.dropLast ++ [l.getLast hne] = l := List.dropLast_append_getLast hne
    have hidx : (l.dropLast ++ [l.getLast hne]).length = l.length := by rw [hsplit]
    have htake : l.take (l.length - (k + 1)) = l.dropLast.take (l.length - (k + 1)) := by
      conv_lhs => rw [← hsplit]
      rw [hidx, List.take_append_of_le_length hmle]
    have hdrop : l.drop (l.length - (k + 1)) =
        l.dropLast.drop (l.length - (k + 1)) ++ [l.getLast hne] := by
      conv_lhs => rw [← hsplit]
      rw [hidx, List.drop_append_of_le_length hmle]
    rw [hm, htake, hdrop, List.reverse_append]
    simp

/-- C7.  `Deck::new()` is the 52 distinct (rank, suit) pairs in the
fixed suit-major (Clubs, Diamonds, Hearts, Spades), rank-minor (2..Ace)
order; any shuffle satisfying the `rand` contract (it permutes the
slice) preserves that multiset exactly; and `k ≤ 52` deals leave
`52 - k` cards, the dealt cards being exactly the removed ones
(remainder ++ dealt-in-reverse reassembles the deck). -/
theorem deck_new_shuffle_deal_invariants :
    (deckNew =
      [⟨.Two, .Clubs⟩, ⟨.Three, .Clubs⟩, ⟨.Four, .Clubs⟩, ⟨.Five, .Clubs⟩,
       ⟨.Six, .Clubs⟩, ⟨.Seven, .Clubs⟩, ⟨.Eight, .Clubs⟩, ⟨.Nine, .Clubs⟩,
       ⟨.Ten, .Clubs⟩, ⟨.Jack, .Clubs⟩, ⟨.Queen, .Clubs⟩, ⟨.King, .Clubs⟩,
       ⟨.Ace, .Clubs⟩,
       ⟨.Two, .Diamonds⟩, ⟨.Three, .Diamonds⟩, ⟨.Four, .Diamonds⟩,
       ⟨.Five, .Diamonds⟩, ⟨.Six, .Diamonds⟩, ⟨.Seven, .Diamonds⟩,
       ⟨.Eight, .Diamonds⟩, ⟨.Nine, .Diamonds⟩, ⟨.Ten, .Diamonds⟩,
       ⟨.Jack, .Diamonds⟩, ⟨.Queen, .Diamonds⟩, ⟨.King, .Diamonds⟩,
       ⟨.Ace, .Diamonds⟩,
       ⟨.Two, .Hearts⟩, ⟨.Three, .Hearts⟩, ⟨.Four, .Hearts⟩, ⟨.Five, .Hearts⟩,
       ⟨.Six, .Hearts⟩, ⟨.Seven, .Hearts⟩, ⟨.Eight, .Hearts⟩, ⟨.Nine, .Hearts⟩,
       ⟨.Ten, .Hearts⟩, ⟨.Jack, .Hearts⟩, ⟨.Queen, .Hearts⟩, ⟨.King, .Hearts⟩,
       ⟨.Ace, .Hearts⟩,
       ⟨.Two, .Spades⟩, ⟨.Three, .Spades⟩, ⟨.Four, .Spades⟩, ⟨.Five, .Spades⟩,
       ⟨.Six, .Spades⟩, ⟨.Seven, .Spades⟩, ⟨.Eight, .Spades⟩, ⟨.Nine, .Spades⟩,
       ⟨.Ten, .Spades⟩, ⟨.Jack, .Spades⟩, ⟨.Queen, .Spades⟩, ⟨.King, .Spades⟩,
       ⟨.Ace, .Spades⟩]) ∧
    deckNew.length = 52 ∧
    deckNew.Nodup ∧
    (∀ (r : Rank) (s : Suit), deckNew.count (Card.mk r s) = 1) ∧
    (∀ σ : List Card → List Card, (∀ l, (σ l).Perm l) →
      (σ deckNew).Perm deckNew ∧
        ∀ (r : Rank) (s : Suit), (σ deckNew).count (Card.mk r s) = 1) ∧
    (∀ k : Nat, k ≤ 52 →
      ∃ dealt rest, dealNStrict k deckNew = some (dealt, rest) ∧
        dealt.length = k ∧ rest.length = 52 - k ∧ rest ++ dealt.reverse = deckNew) := by
  have hcount : ∀ (r : Rank) (s : Suit), deckNew.count (Card.mk r s) = 1 := by decide
  have h52 : deckNew.length = 52 := by decide
  refine ⟨rfl, h52, by decide, hcount, ?_, ?_⟩
  · intro σ hσ
    refine ⟨hσ deckNew, ?_⟩
    intro r s
    rw [(hσ deckNew).count_eq]
    exact hcount r s
  · intro k hk
    refine ⟨(deckNew.drop (deckNew.length - k)).reverse,
      deckNew.take (deckNew.length - k),
      dealNStrict_eq k deckNew (by omega), ?_, ?_, ?_⟩
    · rw [List.length_reverse, List.length_drop, h52]
      omega
    · rw [List.length_take, h52]
      omega
    · rw [List.reverse_reverse, List.take_append_drop]

/-- Witness for C7: shuffling by reversal, then dealing five cards. -/
theorem deck_new_shuffle_deal_invariants_witness :
    (deckNew.reverse.Perm deckNew ∧
      ∀ (r : Rank) (s : Suit), deckNew.reverse.count (Card.mk r s) = 1) ∧
    ∃ dealt rest, dealNStrict 5 deckNew = some (dealt, rest) ∧
      dealt.length = 5 ∧ rest.length = 47 ∧ rest ++ dealt.reverse = deckNew :=
  ⟨deck_new_shuffle_deal_invariants.2.2.2.2.1 List.reverse
      (fun l => List.reverse_perm l),
    deck_new_shuffle_deal_invariants.2.2.2.2.2 5 (by decide)⟩

/-- C8.  `deal()` on the empty deck signals exhaustion (`None`), and on a
freshly shuffled 52-card deck the `2*num_players` hole-card deals
followed by the 5 community deals of `simulate_game` all succeed
whenever `2*num_players + 5 ≤ 52`, so the `unwrap()`-panic branch is
unreachable under that precondition. -/
theorem deal_exhaustion_and_deal_success :
    deal [] = none ∧
    (∀ (n : Nat) (σ : List Card → List Card), (∀ l, (σ l).Perm l) →
      2 * n + 5 ≤ 52 →
      ∃ hole deck1 community deck2,
        dealNStrict (2 * n) (σ deckNew) = some (hole, deck1) ∧
          dealNStrict 5 deck1 = some (community, deck2)) := by
  constructor
  · rfl
  · intro n σ hσ hn
    have hlen : (σ deckNew).length = 52 := by
      rw [(hσ deckNew).length_eq]
      decide
    have h1 := dealNStrict_eq (2 * n) (σ deckNew) (by omega)
    have hlen1 : ((σ deckNew).take ((σ deckNew).length - 2 * n)).length = 52 - 2 * n := by
      rw [List.length_take, hlen]
      omega
    exact ⟨_, _, _, _, h1, dealNStrict_eq 5 _ (by omega)⟩

/-- Witness for C8: six players (the `main` default), identity shuffle. -/
theorem deal_exhaustion_and_deal_success_witness :
    ∃ hole deck1 community deck2,
      dealNStrict (2 * 6) (id deckNew) = some (hole, deck1) ∧
        dealNStrict 5 deck1 = some (community, deck2) :=
  deal_exhaustion_and_deal_success.2 6 id (fun l => List.Perm.refl l) (by decide)

/-- C6.  After evaluating all players (7 cards each: hole cards plus the
community board), the tied-winner list contains exactly the indices whose
evaluation equals the maximum evaluation over all players (the list is
reset on a strictly greater rank and appended to on an equal rank), and
the returned winner — `choose` modelled by an arbitrary draw `k` — is a
member of that list. -/
theorem winner_set_is_argmax (pol : List Card → List Rank) (community : List Card)
    (hands : List (List Card)) (k : Nat) (hne : hands ≠ []) :
    let evals := hands.map (fun h => evaluateHand pol (h ++ community))
    let m := maxOf (HandRank.HighCard Rank.Two) evals
    (∀ j : Nat, j ∈ (findWinners evals).2 ↔
        j < evals.length ∧ evals.getD j (HandRank.HighCard Rank.Two) = m) ∧
    (∀ x ∈ evals, hrLe x m) ∧ m ∈ evals ∧
    chooseIdx k (findWinners evals).2 ∈ (findWinners evals).2 := by
  intro evals m
  have henil : evals ≠ [] := by
    intro hn
    exact hne (List.map_eq_nil_iff.mp hn)
  have hm_mem : m ∈ evals := maxOf_min_mem evals henil
  have hiff : ∀ j, j ∈ (findWinners evals).2 ↔
      j < evals.length ∧ evals.getD j (HandRank.HighCard Rank.Two) = m := by
    intro j
    rw [findWinners_snd_eq, matchIdxs_mem]
    constructor
    · rintro ⟨kk, hk, rfl, hkm⟩
      exact ⟨by simpa using hk, by simpa using hkm⟩
    · rintro ⟨hj, hjm⟩
      exact ⟨j, hj, by omega, hjm⟩
  refine ⟨hiff, ?_, hm_mem, ?_⟩
  · intro x hx
    exact key_mem_le_maxOf evals _ x hx
  · have hws : (findWinners evals).2 ≠ [] := by
      rcases List.mem_iff_getElem.mp hm_mem with ⟨n, hn, hne'⟩
      intro hnil
      have hmem : n ∈ (findWinners evals).2 :=
        (hiff n).mpr ⟨hn, by rw [List.getD_eq_getElem _ _ hn]; exact hne'⟩
      rw [hnil] at hmem
      cases hmem
    unfold chooseIdx
    have hlen : k % (findWinners evals).2.length < (findWinners evals).2.length :=
      Nat.mod_lt _ (List.length_pos.mpr hws)
    rw [List.getD_eq_getElem _ _ hlen]
    exact List.getElem_mem hlen

/-- Witness for C6: one player holding A♠K♠ over the first five deck
cards as board; the chosen winner is in the tied list. -/
theorem winner_set_is_argmax_witness :
    chooseIdx 0 (findWinners ([[(⟨.Ace, .Spades⟩ : Card), ⟨.King, .Spades⟩]].map
        (fun h => evaluateHand canonicalPolicy (h ++ deckNew.take 5)))).2 ∈
      (findWinners ([[(⟨.Ace, .Spades⟩ : Card), ⟨.King, .Spades⟩]].map
        (fun h => evaluateHand canonicalPolicy (h ++ deckNew.take 5)))).2 :=
  (winner_set_is_argmax canonicalPolicy (deckNew.take 5)
    [[⟨.Ace, .Spades⟩, ⟨.King, .Spades⟩]] 0 (by decide)).2.2.2

/-- Witness for C2: the first seven cards of the fresh deck (distinct),
with the canonical iteration-order policy. -/
theorem evaluateHand_is_max_of_subsets_witness :
    evaluateHand canonicalPolicy (deckNew.take 7) ∈
      (combinations 5 (deckNew.take 7)).map
        (fun c => evaluateFiveCardHand (canonicalPolicy c) c) :=
  (evaluateHand_is_max_of_subsets canonicalPolicy (deckNew.take 7)
    (by decide) (by decide)).2.2.2.1

/-! ### One full `simulate_game` call and the `main` aggregation -/

theorem pairUp_length : ∀ l : List Card, (pairUp l).length = l.length / 2
  | [] => rfl
  | [_] => by simp [pairUp]
  | _ :: _ :: rest => by
    simp only [pairUp, List.length_cons, pairUp_length rest]
    omega

theorem categoryList_nodup : categoryList.Nodup := by decide

theorem handRankCategory_mem (h : HandRank) : handRankCategory h ∈ categoryList := by
  cases h <;> simp [handRankCategory, categoryList]

/-- Bumping a label present exactly once raises the tally total by one. -/
theorem sum_map_bump : ∀ (L : List String) (t : String → Nat) (cat : String),
    L.Nodup → cat ∈ L → (L.map (bump t cat)).sum = (L.map t).sum + 1
  | [], _, _, _, hmem => absurd hmem (List.not_mem_nil _)
  | a :: L', t, cat, hnd, hmem => by
    have ha : a ∉ L' := (List.nodup_cons.mp hnd).1
    have hnd' : L'.Nodup := (List.nodup_cons.mp hnd).2
    rcases List.mem_cons.mp hmem with rfl | hmem'
    · have hrest : L'.map (bump t cat) = L'.map t := by
        apply List.map_congr_left
        intro x hx
        have hxa : x ≠ cat := fun he => ha (he ▸ hx)
        simp [bump, hxa]
      have hhead : bump t cat cat = t cat + 1 := by simp [bump]
      simp only [List.map_cons, List.sum_cons, hrest, hhead]
      omega
    · have hacat : a ≠ cat := fun he => ha (he ▸ hmem')
      have hhead : bump t cat a = t a := by simp [bump, hacat]
      simp only [List.map_cons, List.sum_cons,
        sum_map_bump L' t cat hnd' hmem', hhead]
      omega

theorem totalTally_bump (t : String → Nat) (h : HandRank) :
    totalTally (bump t (handRankCategory h)) = totalTally t + 1 :=
  sum_map_bump categoryList t (handRankCategory h) categoryList_nodup
    (handRankCategory_mem h)

theorem totalTally_fold : ∀ (evals : List HandRank) (t : String → Nat),
    totalTally (evals.foldl (fun acc e => bump acc (handRankCategory e)) t) =
      totalTally t + evals.length
  | [], _ => rfl
  | e :: rest, t => by
    simp only [List.foldl_cons, List.length_cons,
      totalTally_fold rest (bump t (handRankCategory e)), totalTally_bump]
    omega

/-- With at least one evaluation, the tied-winner list is nonempty and
all its members are in-range player indices. -/
theorem findWinners_nonempty_bounded (evals : List HandRank) (hne : evals ≠ []) :
    (findWinners evals).2 ≠ [] ∧ ∀ j ∈ (findWinners evals).2, j < evals.length := by
  have hm_mem := maxOf_min_mem evals hne
  constructor
  · rcases List.mem_iff_getElem.mp hm_mem with ⟨nn, hn, hne'⟩
    intro hnil
    have hmem : nn ∈ (findWinners evals).2 := by
      rw [findWinners_snd_eq, matchIdxs_mem]
      exact ⟨nn, hn, by omega, by rw [List.getD_eq_getElem _ _ hn]; exact hne'⟩
    rw [hnil] at hmem
    cases hmem
  · intro j hj
    rw [findWinners_snd_eq, matchIdxs_mem] at hj
    rcases hj with ⟨kk, hk, rfl, _⟩
    omega

theorem chooseIdx_mem (k : Nat) (ws : List Nat) (h : ws ≠ []) :
    chooseIdx k ws ∈ ws := by
  unfold chooseIdx
  have hlen : k % ws.length < ws.length := Nat.mod_lt _ (List.length_pos.mpr h)
  rw [List.getD_eq_getElem _ _ hlen]
  exact List.getElem_mem hlen

/-- One `simulate_game` call under the `rand` contracts: it succeeds,
returns an in-range winner, and adds exactly `n` to the tally total. -/
theorem simulateGame_spec (σ : List Card → List Card)
    (pshuf : List (List Card) → List (List Card)) (pol : List Card → List Rank)
    (pick n : Nat) (tally : String → Nat)
    (hσ : ∀ l, (σ l).Perm l) (hp : ∀ hs, (pshuf hs).Perm hs)
    (hn : 1 ≤ n) (hd : 2 * n + 5 ≤ 52) :
    ∃ w tally', simulateGame σ pshuf pol pick n tally = some (w, tally') ∧
      w < n ∧ totalTally tally' = totalTally tally + n := by
  have hlen : (σ deckNew).length = 52 := (hσ deckNew).length_eq.trans (by decide)
  have h1 := dealNStrict_eq (2 * n) (σ deckNew) (by omega)
  have hhole : ((σ deckNew).drop ((σ deckNew).length - 2 * n)).reverse.length = 2 * n := by
    rw [List.length_reverse, List.length_drop, hlen]
    omega
  have hdeck1 : ((σ deckNew).take ((σ deckNew).length - 2 * n)).length = 52 - 2 * n := by
    rw [List.length_take, hlen]
    omega
  have h2 := dealNStrict_eq 5 ((σ deckNew).take ((σ deckNew).length - 2 * n)) (by omega)
  unfold simulateGame
  rw [h1]
  dsimp only
  rw [h2]
  dsimp only
  have hplen : (pshuf (pairUp ((σ deckNew).drop ((σ deckNew).length - 2 * n)).reverse)).length = n := by
    rw [(hp _).length_eq, pairUp_length, hhole]
    omega
  set players := pshuf (pairUp ((σ deckNew).drop ((σ deckNew).length - 2 * n)).reverse) with hplayers
  set community := ((σ deckNew).take ((σ deckNew).length - 2 * n)).drop
      (((σ deckNew).take ((σ deckNew).length - 2 * n)).length - 5) with hcomm
  set evals := players.map (fun h => evaluateHand pol (h ++ community.reverse)) with hevals
  have helen : evals.length = n := by
    rw [hevals, List.length_map, hplen]
  have hene : evals ≠ [] := by
    intro he
    rw [he] at helen
    simp at helen
    omega
  obtain ⟨hwne, hwbd⟩ := findWinners_nonempty_bounded evals hene
  cases hws : (findWinners evals).2 with
  | nil => exact absurd hws hwne
  | cons w ws =>
    refine ⟨chooseIdx pick (w :: ws),
      List.foldl (fun t e => bump t (handRankCategory e)) tally evals, ?_, ?_, ?_⟩
    · rfl
    · have hmem : chooseIdx pick (w :: ws) ∈ w :: ws :=
        chooseIdx_mem pick (w :: ws) (by simp)
      have hj : chooseIdx pick (w :: ws) ∈ (findWinners evals).2 := by
        rw [hws]
        exact hmem
      have hb := hwbd _ hj
      omega
    · rw [totalTally_fold, helen]

theorem incrAt_length (l : List Nat) (i : Nat) : (incrAt l i).length = l.length :=
  List.length_set l i _

theorem incrAt_sum : ∀ (l : List Nat) (i : Nat), i < l.length →
    (incrAt l i).sum = l.sum + 1
  | a :: t, 0, _ => by
    simp [incrAt]
    omega
  | a :: t, i + 1, h => by
    have ht := incrAt_sum t i (by simpa using h)
    simp only [incrAt, List.getD_cons_succ, List.set_cons_succ, List.sum_cons]
    simp only [incrAt] at ht
    omega

/-- The aggregation loop of `main`: all trials succeed under the `rand`
contracts, the win vector keeps length `n` and its total rises by one per
trial, and the tally total rises by `n` per trial. -/
theorem runTrialsAux_spec : ∀ (trials : List TrialParams) (n : Nat) (wins : List Nat)
    (tally : String → Nat), (∀ t ∈ trials, ValidTrial t) → 1 ≤ n → 2 * n + 5 ≤ 52 →
    wins.length = n →
    ∃ wins' tally', runTrialsAux n trials wins tally = some (wins', tally') ∧
      wins'.length = n ∧ wins'.sum = wins.sum + trials.length ∧
      totalTally tally' = totalTally tally + trials.length * n
  | [], n, wins, tally, _, _, _, hw => ⟨wins, tally, rfl, hw, by simp, by simp⟩
  | (σ, pshuf, pol, pick) :: rest, n, wins, tally, hv, hn, hd, hw => by
    have hva := hv _ (List.mem_cons_self _ _)
    obtain ⟨w, t1, hsim, hwn, htot⟩ :=
      simulateGame_spec σ pshuf pol pick n tally hva.1 hva.2 hn hd
    obtain ⟨wins', tally', hrun, hl, hs, ht⟩ :=
      runTrialsAux_spec rest n (incrAt wins w) t1
        (fun t htm => hv t (List.mem_cons_of_mem _ htm)) hn hd
        ((incrAt_length wins w).trans hw)
    refine ⟨wins', tally', ?_, hl, ?_, ?_⟩
    · simp only [runTrialsAux]
      rw [hsim]
      exact hrun
    · rw [hs, incrAt_sum wins w (by omega)]
      simp only [List.length_cons]
      omega
    · rw [ht, htot]
      simp only [List.length_cons, Nat.succ_mul]
      omega

/-- C9.  Each `simulate_game` call (under the `rand` shuffle contracts,
with at least one player and enough cards) returns a winner index below
`num_players` and adds exactly `num_players` to the caller's category
tally (one category per player); consequently, over any list of trials
`main`'s aggregation yields per-player win counts summing to the number
of trials and category counts summing to `trials * num_players`. -/
theorem simulate_and_aggregate_invariants :
    (∀ (σ : List Card → List Card) (pshuf : List (List Card) → List (List Card))
        (pol : List Card → List Rank) (pick n : Nat) (tally : String → Nat),
      (∀ l, (σ l).Perm l) → (∀ hs, (pshuf hs).Perm hs) →
      1 ≤ n → 2 * n + 5 ≤ 52 →
      ∃ w tally', simulateGame σ pshuf pol pick n tally = some (w, tally') ∧
        w < n ∧ totalTally tally' = totalTally tally + n) ∧
    (∀ (n : Nat) (trials : List TrialParams), (∀ t ∈ trials, ValidTrial t) →
      1 ≤ n → 2 * n + 5 ≤ 52 →
      ∃ wins tally', runTrials n trials = some (wins, tally') ∧
        wins.length = n ∧ wins.sum = trials.length ∧
        totalTally tally' = trials.length * n) := by
  constructor
  · intro σ pshuf pol pick n tally h1 h2 h3 h4
    exact simulateGame_spec σ pshuf pol pick n tally h1 h2 h3 h4
  · intro n trials hv hn hd
    obtain ⟨wins, tally', h1, h2, h3, h4⟩ :=
      runTrialsAux_spec trials n (List.replicate n 0) (fun _ => 0) hv hn hd
        (List.length_replicate n 0)
    refine ⟨wins, tally', h1, h2, ?_, ?_⟩
    · rw [h3]
      simp
    · rw [h4]
      simp [totalTally]

/-! ### Iteration-order and permutation invariance of the 5-card evaluator -/

theorem contains_true_iff_mem {α : Type} [DecidableEq α] (l : List α) (x : α) :
    l.contains x = true ↔ x ∈ l := by
  simp

theorem contains_eq_of_perm {α : Type} [DecidableEq α] {l1 l2 : List α}
    (h : l1.Perm l2) (x : α) : l1.contains x = l2.contains x := by
  rw [Bool.eq_iff_iff, contains_true_iff_mem, contains_true_iff_mem]
  exact h.mem_iff

theorem contains_map_count_iff (c : List Card) (ord : List Rank) (m : Nat) :
    (ord.map (rankCount c)).contains m = true ↔ ∃ r ∈ ord, rankCount c r = m := by
  rw [contains_true_iff_mem]
  simp [List.mem_map]

theorem count_add3_le {α : Type} [DecidableEq α] {a b c : α} (hab : a ≠ b)
    (hac : a ≠ c) (hbc : b ≠ c) : ∀ l : List α,
    l.count a + l.count b + l.count c ≤ l.length
  | [] => by simp
  | x :: t => by
    have ht := count_add3_le hab hac hbc t
    simp only [List.count_cons, List.length_cons, beq_iff_eq]
    by_cases h1 : x = a <;> by_cases h2 : x = b <;> by_cases h3 : x = c
    · exact absurd (h1.symm.trans h2) hab
    · exact absurd (h1.symm.trans h2) hab
    · exact absurd (h1.symm.trans h3) hac
    · rw [if_pos h1, if_neg h2, if_neg h3]
      omega
    · exact absurd (h2.symm.trans h3) hbc
    · rw [if_neg h1, if_pos h2, if_neg h3]
      omega
    · rw [if_neg h1, if_neg h2, if_pos h3]
      omega
    · rw [if_neg h1, if_neg h2, if_neg h3]
      omega

theorem ranksOf_length (c : List Card) (h5 : c.length = 5) : (ranksOf c).length = 5 := by
  rw [ranksOf, List.length_map, h5]

theorem count4_unique (c : List Card) (h5 : c.length = 5) {r r' : Rank}
    (h : rankCount c r = 4) (h' : rankCount c r' = 4) : r = r' := by
  by_contra hne
  have hb := count_add_count_le hne (ranksOf c)
  rw [ranksOf_length c h5] at hb
  unfold rankCount at h h'
  omega

theorem count3_unique (c : List Card) (h5 : c.length = 5) {r r' : Rank}
    (h : rankCount c r = 3) (h' : rankCount c r' = 3) : r = r' := by
  by_contra hne
  have hb := count_add_count_le hne (ranksOf c)
  rw [ranksOf_length c h5] at hb
  unfold rankCount at h h'
  omega

/-- In a full house (a rank of multiplicity 3 exists), the multiplicity-2
rank is unique. -/
theorem fullhouse_pair_unique (c : List Card) (h5 : c.length = 5) {r3 r r' : Rank}
    (h3 : rankCount c r3 = 3) (h : rankCount c r = 2) (h' : rankCount c r' = 2) :
    r = r' := by
  by_contra hne
  have h3r : r3 ≠ r := fun he => by rw [he, h] at h3; cases h3
  have h3r' : r3 ≠ r' := fun he => by rw [he, h'] at h3; cases h3
  have hb := count_add3_le h3r h3r' hne (ranksOf c)
  rw [ranksOf_length c h5] at hb
  unfold rankCount at h3 h h'
  omega

/-- A permutation between two-element lists is an equality or a swap. -/
theorem perm_pair_eq {α : Type} [DecidableEq α] {a b c d : α}
    (h : ([a, b] : List α).Perm [c, d]) :
    (a = c ∧ b = d) ∨ (a = d ∧ b = c) := by
  have hc : c = a ∨ c = b := by
    have hm := h.symm.subset (List.mem_cons_self c [d])
    simpa using hm
  have hd : d = a ∨ d = b := by
    have hm := h.symm.subset (List.mem_cons_of_mem c (List.mem_cons_self d []))
    simpa using hm
  rcases hc with hc | hc <;> rcases hd with hd | hd
  · -- c = a and d = a: the count of b forces b = a
    left
    refine ⟨hc.symm, ?_⟩
    by_cases hba : b = a
    · rw [hba, hd]
    · exfalso
      have hb := h.count_eq b
      rw [hc, hd] at hb
      have hab' : ¬ a = b := fun he => hba he.symm
      simp [List.count_cons, hab'] at hb
  · exact Or.inl ⟨hc.symm, hd.symm⟩
  · exact Or.inr ⟨hd.symm, hc.symm⟩
  · -- c = b and d = b: the count of a forces a = b
    by_cases hab : a = b
    · exact Or.inl ⟨hab.trans hc.symm, hd.symm⟩
    · exfalso
      have ha := h.count_eq a
      rw [hc, hd] at ha
      have hba' : ¬ b = a := fun he => hab he.symm
      simp [List.count_cons, hba'] at ha

theorem list2_eq : ∀ (l : List Rank), l.length = 2 → ∃ a b, l = [a, b]
  | [a, b], _ => ⟨a, b, rfl⟩
  | [], h => by simp at h
  | [_], h => by simp at h
  | _ :: _ :: _ :: _, h => by
    simp only [List.length_cons] at h
    omega

theorem list3plus_eq : ∀ (l : List Rank), 3 ≤ l.length →
    ∃ x y z r, l = x :: y :: z :: r
  | x :: y :: z :: r, _ => ⟨x, y, z, r, rfl⟩
  | [], h => by simp at h
  | [_], h => by simp at h
  | [_, _], h => by simp at h

/-- `evaluate_five_card_hand` reads its input only through the sorted
ranks, the flush flag, the straight flag and the rank counts. -/
theorem eval_congr (ord : List Rank) {c1 c2 : List Card}
    (hsd : sortedRanksDesc c1 = sortedRanksDesc c2)
    (hf : isFlushOf c1 = isFlushOf c2)
    (hs : isStraightOf c1 = isStraightOf c2)
    (hc : rankCount c1 = rankCount c2) :
    evaluateFiveCardHand ord c1 = evaluateFiveCardHand ord c2 := by
  unfold evaluateFiveCardHand
  rw [hsd, hf, hs, hc]

/-- On a fixed 5-card hand, changing the `HashMap` iteration order can
only swap the two ranks carried by `TwoPair`; every other branch of
`evaluate_five_card_hand` is iteration-order independent. -/
theorem eval_ord_perm (c : List Card) (h5 : c.length = 5) (ord1 ord2 : List Rank)
    (hi1 : IsIterOrder c ord1) (hi2 : IsIterOrder c ord2) :
    SameUpToTwoPairSwap (evaluateFiveCardHand ord1 c) (evaluateFiveCardHand ord2 c) := by
  have hords : ord1.Perm ord2 := hi1.trans hi2.symm
  unfold evaluateFiveCardHand
  dsimp only
  by_cases hfs : (isFlushOf c && isStraightOf c) = true
  · rw [if_pos hfs, if_pos hfs]
    exact Or.inl rfl
  · rw [if_neg hfs, if_neg hfs]
    have hc4 := contains_eq_of_perm (hords.map (rankCount c)) 4
    have hc3 := contains_eq_of_perm (hords.map (rankCount c)) 3
    have hc2 := contains_eq_of_perm (hords.map (rankCount c)) 2
    by_cases hb4 : ((ord1.map (rankCount c)).contains 4) = true
    · have hb4' : ((ord2.map (rankCount c)).contains 4) = true := by
        rw [← hc4]
        exact hb4
      rw [if_pos hb4, if_pos hb4']
      obtain ⟨a, ha1, hka⟩ := (contains_map_count_iff c ord1 4).mp hb4
      have huniq1 : ∀ x ∈ ord1, (fun r => decide (rankCount c r = 4)) x = true → x = a :=
        fun x _ hx => count4_unique c h5 (of_decide_eq_true hx) hka
      have huniq2 : ∀ x ∈ ord2, (fun r => decide (rankCount c r = 4)) x = true → x = a :=
        fun x _ hx => count4_unique c h5 (of_decide_eq_true hx) hka
      rw [find_eq_of_unique ha1 (decide_eq_true hka) huniq1,
        find_eq_of_unique (hords.mem_iff.mp ha1) (decide_eq_true hka) huniq2]
      exact Or.inl rfl
    · have hb4' : ¬((ord2.map (rankCount c)).contains 4) = true := by
        rw [← hc4]
        exact hb4
      rw [if_neg hb4, if_neg hb4']
      have hcc : ((ord1.map (rankCount c)).contains 3 &&
            (ord1.map (rankCount c)).contains 2) =
          ((ord2.map (rankCount c)).contains 3 &&
            (ord2.map (rankCount c)).contains 2) := by
        rw [hc3, hc2]
      by_cases hb32 : ((ord1.map (rankCount c)).contains 3 &&
          (ord1.map (rankCount c)).contains 2) = true
      · have hb32' : ((ord2.map (rankCount c)).contains 3 &&
            (ord2.map (rankCount c)).contains 2) = true := by
          rw [← hcc]
          exact hb32
        rw [if_pos hb32, if_pos hb32']
        have hsplit32 := hb32
        rw [Bool.and_eq_true] at hsplit32
        obtain ⟨h3t, h2t⟩ := hsplit32
        obtain ⟨r3, hr31, hk3⟩ := (contains_map_count_iff c ord1 3).mp h3t
        obtain ⟨r2, hr21, hk2⟩ := (contains_map_count_iff c ord1 2).mp h2t
        have hu31 : ∀ x ∈ ord1, (fun r => decide (rankCount c r = 3)) x = true → x = r3 :=
          fun x _ hx => count3_unique c h5 (of_decide_eq_true hx) hk3
        have hu32 : ∀ x ∈ ord2, (fun r => decide (rankCount c r = 3)) x = true → x = r3 :=
          fun x _ hx => count3_unique c h5 (of_decide_eq_true hx) hk3
        have hu21 : ∀ x ∈ ord1, (fun r => decide (rankCount c r = 2)) x = true → x = r2 :=
          fun x _ hx => fullhouse_pair_unique c h5 hk3 (of_decide_eq_true hx) hk2
        have hu22 : ∀ x ∈ ord2, (fun r => decide (rankCount c r = 2)) x = true → x = r2 :=
          fun x _ hx => fullhouse_pair_unique c h5 hk3 (of_decide_eq_true hx) hk2
        rw [find_eq_of_unique hr31 (decide_eq_true hk3) hu31,
          find_eq_of_unique (hords.mem_iff.mp hr31) (decide_eq_true hk3) hu32,
          find_eq_of_unique hr21 (decide_eq_true hk2) hu21,
          find_eq_of_unique (hords.mem_iff.mp hr21) (decide_eq_true hk2) hu22]
        exact Or.inl rfl
      · have hb32' : ¬((ord2.map (rankCount c)).contains 3 &&
            (ord2.map (rankCount c)).contains 2) = true := by
          rw [← hcc]
          exact hb32
        rw [if_neg hb32, if_neg hb32']
        by_cases hfl : isFlushOf c = true
        · rw [if_pos hfl, if_pos hfl]
          exact Or.inl rfl
        · rw [if_neg hfl, if_neg hfl]
          by_cases hst : isStraightOf c = true
          · rw [if_pos hst, if_pos hst]
            exact Or.inl rfl
          · rw [if_neg hst, if_neg hst]
            by_cases hb3 : ((ord1.map (rankCount c)).contains 3) = true
            · have hb3' : ((ord2.map (rankCount c)).contains 3) = true := by
                rw [← hc3]
                exact hb3
              rw [if_pos hb3, if_pos hb3']
              obtain ⟨r3, hr31, hk3⟩ := (contains_map_count_iff c ord1 3).mp hb3
              have hu31 : ∀ x ∈ ord1, (fun r => decide (rankCount c r = 3)) x = true → x = r3 :=
                fun x _ hx => count3_unique c h5 (of_decide_eq_true hx) hk3
              have hu32 : ∀ x ∈ ord2, (fun r => decide (rankCount c r = 3)) x = true → x = r3 :=
                fun x _ hx => count3_unique c h5 (of_decide_eq_true hx) hk3
              rw [find_eq_of_unique hr31 (decide_eq_true hk3) hu31,
                find_eq_of_unique (hords.mem_iff.mp hr31) (decide_eq_true hk3) hu32]
              exact Or.inl rfl
            · have hb3' : ¬((ord2.map (rankCount c)).contains 3) = true := by
                rw [← hc3]
                exact hb3
              rw [if_neg hb3, if_neg hb3']
              have hpf : (ord1.filter (fun r => decide (rankCount c r = 2))).Perm
                  (ord2.filter (fun r => decide (rankCount c r = 2))) :=
                hords.filter _
              cases hsh : ord1.filter (fun r => decide (rankCount c r = 2)) with
              | nil =>
                have h2 : ord2.filter (fun r => decide (rankCount c r = 2)) = [] := by
                  rw [hsh] at hpf
                  exact List.perm_nil.mp hpf.symm
                rw [h2]
                exact Or.inl rfl
              | cons p1 rest1 =>
                cases rest1 with
                | nil =>
                  have h2 : ord2.filter (fun r => decide (rankCount c r = 2)) = [p1] := by
                    rw [hsh] at hpf
                    exact List.perm_singleton.mp hpf.symm
                  rw [h2]
                  exact Or.inl rfl
                | cons p2 rest2 =>
                  cases rest2 with
                  | nil =>
                    have hlen2 : (ord2.filter (fun r => decide (rankCount c r = 2))).length = 2 := by
                      rw [← hpf.length_eq, hsh]
                      rfl
                    obtain ⟨q1, q2, h2⟩ := list2_eq _ hlen2
                    have hpp : ([p1, p2] : List Rank).Perm [q1, q2] := by
                      rw [← hsh, ← h2]
                      exact hpf
                    rw [h2]
                    rcases perm_pair_eq hpp with ⟨he1, he2⟩ | ⟨he1, he2⟩
                    · rw [← he1, ← he2]
                      exact Or.inl rfl
                    · exact Or.inr ⟨p1, p2, rfl, by rw [← he1, ← he2]⟩
                  | cons p3 rest3 =>
                    have hlen3 : 3 ≤ (ord2.filter (fun r => decide (rankCount c r = 2))).length := by
                      rw [← hpf.length_eq, hsh]
                      simp only [List.length_cons]
                      omega
                    obtain ⟨x, y, z, r, h2⟩ := list3plus_eq _ hlen3
                    rw [h2]
                    exact Or.inl rfl

theorem sameUpToTwoPairSwap_category {x y : HandRank} (h : SameUpToTwoPairSwap x y) :
    handRankCategory x = handRankCategory y := by
  rcases h with rfl | ⟨a, b, rfl, rfl⟩ <;> rfl

/-- C3 counterexample.  On the two-pair hand {2♣,2♦,3♣,3♦,5♠}, two calls
with the same (identity-permuted) cards but different faithful `HashMap`
iteration orders return different `HandRank` values: the two ranks
carried by `TwoPair` come out in map-iteration order, so the result is
not a deterministic function of the card multiset. -/
theorem twoPair_payload_order_dependent :
    IsIterOrder twoPairHand [Rank.Two, Rank.Three, Rank.Five] ∧
    IsIterOrder twoPairHand [Rank.Three, Rank.Two, Rank.Five] ∧
    twoPairHand.Perm twoPairHand ∧
    evaluateFiveCardHand [Rank.Two, Rank.Three, Rank.Five] twoPairHand =
      HandRank.TwoPair Rank.Two Rank.Three ∧
    evaluateFiveCardHand [Rank.Three, Rank.Two, Rank.Five] twoPairHand =
      HandRank.TwoPair Rank.Three Rank.Two ∧
    evaluateFiveCardHand [Rank.Two, Rank.Three, Rank.Five] twoPairHand ≠
      evaluateFiveCardHand [Rank.Three, Rank.Two, Rank.Five] twoPairHand := by
  decide

/-- C3 amended.  For every 5-card input, `evaluate_five_card_hand` is a
deterministic function of the card multiset UP TO the order of the two
ranks carried by `TwoPair`: any two calls on permutations of the same 5
cards (under any faithful map-iteration orders) return the same value,
except that `TwoPair`'s two ranks may appear swapped; in particular the
hand category always agrees. -/
theorem evaluateFiveCardHand_perm_invariant_upto_twopair :
    ∀ (c1 c2 : List Card) (ord1 ord2 : List Rank),
      c1.length = 5 → c1.Perm c2 → IsIterOrder c1 ord1 → IsIterOrder c2 ord2 →
      SameUpToTwoPairSwap (evaluateFiveCardHand ord1 c1) (evaluateFiveCardHand ord2 c2) ∧
        handRankCategory (evaluateFiveCardHand ord1 c1) =
          handRankCategory (evaluateFiveCardHand ord2 c2) := by
  intro c1 c2 ord1 ord2 h5 hperm hi1 hi2
  have hr : (ranksOf c1).Perm (ranksOf c2) := hperm.map _
  have hi2' : IsIterOrder c1 ord2 := hi2.trans hr.dedup.symm
  have hmain := eval_ord_perm c1 h5 ord1 ord2 hi1 hi2'
  have heq : evaluateFiveCardHand ord2 c1 = evaluateFiveCardHand ord2 c2 :=
    eval_congr ord2 (sortedRanksDesc_eq_of_perm hr)
      (isFlushOf_eq_of_perm hperm)
      (by unfold isStraightOf; rw [sortedRankValues_eq_of_perm hr])
      (rankCount_eq_of_perm hr)
  rw [heq] at hmain
  exact ⟨hmain, sameUpToTwoPairSwap_category hmain⟩

/-- Witness for the amended C3: the two-pair hand with the two iteration
orders of the counterexample. -/
theorem evaluateFiveCardHand_perm_invariant_upto_twopair_witness :
    SameUpToTwoPairSwap
        (evaluateFiveCardHand [Rank.Two, Rank.Three, Rank.Five] twoPairHand)
        (evaluateFiveCardHand [Rank.Three, Rank.Two, Rank.Five] twoPairHand) ∧
      handRankCategory (evaluateFiveCardHand [Rank.Two, Rank.Three, Rank.Five] twoPairHand) =
        handRankCategory (evaluateFiveCardHand [Rank.Three, Rank.Two, Rank.Five] twoPairHand) :=
  evaluateFiveCardHand_perm_invariant_upto_twopair twoPairHand twoPairHand
    [Rank.Two, Rank.Three, Rank.Five] [Rank.Three, Rank.Two, Rank.Five]
    (by decide) (List.Perm.refl _) (by decide) (by decide)

/-- Witness for C9: one trial, two players, identity shuffles. -/
theorem simulate_and_aggregate_invariants_witness :
    ∃ wins tally',
      runTrials 2 [((id, id, canonicalPolicy, 0) : TrialParams)] = some (wins, tally') ∧
        wins.length = 2 ∧ wins.sum = 1 ∧ totalTally tally' = 2 := by
  obtain ⟨wins, tally', h1, h2, h3, h4⟩ :=
    simulate_and_aggregate_invariants.2 2 [((id, id, canonicalPolicy, 0) : TrialParams)]
      (fun t ht => by
        rw [List.mem_singleton] at ht
        subst ht
        exact ⟨fun l => List.Perm.refl l, fun hs => List.Perm.refl hs⟩)
      (by decide) (by decide)
  exact ⟨wins, tally', h1, h2, by simpa using h3, by simpa using h4⟩

end Poker
